import Mathlib

set_option maxHeartbeats 1000000
set_option maxRecDepth 8000

/-!
Shallow embedding of `scripts/chatterbox_server.py`, the single source file of
the repository: the text chunker `split_text_into_chunks`, the model loading
guard `load_model`, and the `/speak` request handler with its audio assembly.
Strings are modelled as Lean strings (lists of characters); the two regular
expression splits of the source are modelled by explicit character scanners
that simulate the matching discipline of `re.split`.
-/

/-- Characters matched by the Python regular expression class `\s` and
stripped by `str.strip` (ASCII fragment; the additional Unicode whitespace
code points play no role in this development). -/
def isPySpace (c : Char) : Bool :=
  c = ' ' || c = '\t' || c = '\n' || c = '\r' || c = '\x0b' || c = '\x0c'

/-- Removal of trailing whitespace, the right half of Python `str.strip`. -/
def dropTrail (l : List Char) : List Char :=
  (l.reverse.dropWhile isPySpace).reverse

/-- Python `str.strip` on a list of characters: removes leading and trailing
whitespace. -/
def pyStripL (l : List Char) : List Char :=
  dropTrail (l.dropWhile isPySpace)

/-- Python `str.strip` on a string. -/
def pyStripS (s : String) : String :=
  String.mk (pyStripL s.data)

/-- Property of a character list whose first character, when present, is not
whitespace. -/
def HeadClean (l : List Char) : Prop :=
  ∀ c, l.head? = some c → isPySpace c = false

/-- Property of a character list whose last character, when present, is not
whitespace. -/
def LastClean (l : List Char) : Prop :=
  ∀ c, l.getLast? = some c → isPySpace c = false

/-- Property of a non-empty character list with no whitespace at either
end. -/
def Clean (l : List Char) : Prop :=
  l ≠ [] ∧ HeadClean l ∧ LastClean l

/-- Test for a sentence-ending character, used by the lookbehind
`(?<=[.!?])` of the sentence-splitting regular expression; the argument is
the last character scanned so far (`none` at the start of the string). -/
def sentEndOpt : Option Char → Bool
  | some c => c = '.' || c = '!' || c = '?'
  | none => false

/-- Scanner simulating `re.split(r'(?<=[.!?])\s+', text)` from the source,
line 71.  The accumulator `acc` holds the piece being built; the flag is true
while the scanner is consuming the maximal whitespace run of a match.  A
match begins at a whitespace character whose predecessor is one of `.`, `!`,
`?`; the whole whitespace run is consumed as the separator. -/
def sentAux : List Char → List Char → Bool → List (List Char)
  | [], acc, _ => [acc]
  | c :: cs, acc, true =>
    if isPySpace c then sentAux cs acc true
    else sentAux cs (acc ++ [c]) false
  | c :: cs, acc, false =>
    if isPySpace c && sentEndOpt acc.getLast? then
      acc :: sentAux cs [] true
    else
      sentAux cs (acc ++ [c]) false

/-- Sentence list of a text, `re.split(r'(?<=[.!?])\s+', text)`. -/
def splitSentences (t : List Char) : List (List Char) :=
  sentAux t [] false

/-- Scanner simulating `re.split(r',\s*', sentence)` from the source,
line 85.  A match begins at a comma and consumes the comma together with the
maximal whitespace run following it. -/
def commaAux : List Char → List Char → Bool → List (List Char)
  | [], acc, _ => [acc]
  | c :: cs, acc, true =>
    if isPySpace c then commaAux cs acc true
    else if c = ',' then acc :: commaAux cs [] true
    else commaAux cs (acc ++ [c]) false
  | c :: cs, acc, false =>
    if c = ',' then acc :: commaAux cs [] true
    else commaAux cs (acc ++ [c]) false

/-- Clause list of a sentence, `re.split(r',\s*', sentence)`. -/
def splitCommas (s : List Char) : List (List Char) :=
  commaAux s [] false

/-- Body of the `for sentence in sentences` loop of
`split_text_into_chunks` (source lines 77 to 91).  The state is the pair of
the chunk list built so far and the running chunk `current_chunk`.  Note
that in the over-long-sentence branch the source appends `part.strip()` in
both arms of its inner conditional, and does not reset `current_chunk`
after flushing it. -/
def chunkStep (maxChars : Nat) :
    List (List Char) × List Char → List Char → List (List Char) × List Char
  | (chunks, cur), sentence =>
    if cur.length + sentence.length + 1 ≤ maxChars then
      (chunks, pyStripL (cur ++ ' ' :: sentence))
    else
      let chunks1 := if cur = [] then chunks else chunks ++ [cur]
      if maxChars < sentence.length then
        (chunks1 ++ (splitCommas sentence).map pyStripL, cur)
      else
        (chunks1, sentence)

/-- Chunk list before the final fallback: the loop over the sentences of the
stripped text followed by the flush of the remaining running chunk (source
lines 73 to 94). -/
def rawChunks (t : List Char) (maxChars : Nat) : List (List Char) :=
  let folded := (splitSentences (pyStripL t)).foldl (chunkStep maxChars) ([], [])
  if folded.2 = [] then folded.1 else folded.1 ++ [folded.2]

/-- Result of the chunker on a character list, including the fallback
`return chunks if chunks else [text]` of line 98: when no chunks were
produced the original, unstripped text is returned as the only element. -/
def chunksOf (t : List Char) (maxChars : Nat) : List (List Char) :=
  if rawChunks t maxChars = [] then [t] else rawChunks t maxChars

/-- The function `split_text_into_chunks(text, max_chars)` of the source
(lines 66 to 98). -/
def split_text_into_chunks (text : String) (maxChars : Nat) : List String :=
  (chunksOf text.data maxChars).map String.mk

/-- Join of a list of pieces with a single space between adjacent pieces. -/
def glueSp : List (List Char) → List Char
  | [] => []
  | [p] => p
  | p :: q :: ps => p ++ ' ' :: glueSp (q :: ps)

/-- Concatenation of the chunks with single spaces reinserted between
adjacent chunks, the reading of the chunks used by the round-trip claim. -/
def joinChunks (chunks : List String) : String :=
  String.mk (glueSp (chunks.map String.data))

/-- Scanner computing the whitespace-normalized text: it copies the input
except that each whitespace run following one of `.`, `!`, `?` is collapsed
to a single space.  The branching structure is that of `sentAux` so that the
two scanners can be related. -/
def normAux : List Char → List Char → Bool → List Char
  | [], acc, _ => acc
  | c :: cs, acc, true =>
    if isPySpace c then normAux cs acc true
    else normAux cs (acc ++ [c]) false
  | c :: cs, acc, false =>
    if isPySpace c && sentEndOpt acc.getLast? then
      normAux cs (acc ++ [' ']) true
    else
      normAux cs (acc ++ [c]) false

/-- Modelled from the spec: the phrase "T's content modulo whitespace
normalization" of the round-trip property.  The text is stripped and each
whitespace run following a sentence-ending punctuation mark is collapsed to
a single space; every other character is kept unchanged. -/
def normalizeWhitespace (text : String) : String :=
  String.mk (normAux (pyStripL text.data) [] false)

/-- The guard `if chunk.strip():` of the synthesis loop (source line 126):
a chunk is synthesized only when it is non-blank after stripping. -/
def nonBlank (c : String) : Bool :=
  pyStripS c ≠ ""

/-- Sample count of the inserted silence, `int(0.2 * tts.sr)` of source
line 133.  On natural sample rates this is the floor of a fifth of the
rate; at the model rates in use (for example 16000, giving 3200) the Python
floating-point computation yields the same value. -/
def silenceSamples (sr : Nat) : Nat :=
  sr / 5

/-- The concatenation loop of source lines 137 to 143: every segment is
appended, and the silence buffer is appended after every segment except the
last; `torch.cat` then concatenates all buffers along the time axis. -/
def combineWithSilence (silence : List Int) : List (List Int) → List Int
  | [] => []
  | [s] => s
  | s :: t :: rest => s ++ silence ++ combineWithSilence silence (t :: rest)

/-- Assembly of the synthesized segments with the fixed 0.2 second silence
buffer (`torch.zeros(1, silence_samples)`) inserted between adjacent
segments. -/
def assembleAudio (segs : List (List Int)) (sr : Nat) : List Int :=
  combineWithSilence (List.replicate (silenceSamples sr) 0) segs

/-- Abstract TTS model: the opaque external capability consumed by the
server, exposing `generate(text) -> waveform` and a fixed sample rate.
Waveforms are modelled as lists of samples. -/
structure TTSModel where
  gen : String → List Int
  sr : Nat

/-- The two module-level globals of the server, `tts` and `device`
(source lines 30 and 31); both start as `None`. -/
structure ServerState where
  tts : Option TTSModel
  device : Option String

/-- The function `load_model()` of the source (lines 33 to 59): a no-op when
`tts` is already set, otherwise it selects a device and instantiates the
model.  The external `ChatterboxTurboTTS.from_pretrained` call and the
device probe are abstracted as the parameters `M` and `dev`. -/
def load_model (M : TTSModel) (dev : String) (st : ServerState) : ServerState :=
  if st.tts.isSome then st else { tts := some M, device := some dev }

/-- Observable outcome of a `/speak` request: the HTTP 400 and 500 error
responses, or the 200 response carrying the sample rate, the chunk count,
and the assembled waveform (the temporary file write is external I/O and
the generated path is not modelled). -/
inductive SpeakResponse where
  | badRequest (error : String)
  | serverError (error : String)
  | ok (sample_rate : Nat) (chunks : Nat) (audio : List Int)
  deriving DecidableEq

/-- The `/speak` handler of the source (lines 100 to 159) as a state
transformer.  It first runs `if tts is None: load_model()` (whose effect is
exactly one application of `load_model`), then rejects empty text with a 400
response, chunks the text, synthesizes every non-blank chunk, rejects an
empty segment list with a 500 response, and otherwise assembles the audio. -/
def speak (M : TTSModel) (dev : String) (st : ServerState) (text : String)
    (max_chunk_size : Nat) : SpeakResponse × ServerState :=
  let st1 := load_model M dev st
  let m := st1.tts.getD M
  if text = "" then
    (SpeakResponse.badRequest "No text provided", st1)
  else
    let chunks := split_text_into_chunks text max_chunk_size
    let segments := (chunks.filter nonBlank).map m.gen
    if segments = [] then
      (SpeakResponse.serverError "No audio generated", st1)
    else
      (SpeakResponse.ok m.sr chunks.length (assembleAudio segments m.sr), st1)

/-- Concrete stand-in for the external pretrained model, used to evaluate
the handler on closed inputs: each chunk synthesizes to a waveform of one
sample per character, at the 16 kHz rate of the claims. -/
def sampleModel : TTSModel where
  gen := fun t => List.replicate t.length 1
  sr := 16000

example : split_text_into_chunks "Hello world. This is a test." 15 =
    ["Hello world.", "This is a test."] := by decide

example : split_text_into_chunks "Hi. Abcdefghijk, xy" 10 =
    ["Hi.", "Abcdefghijk", "xy", "Hi."] := by decide

example : split_text_into_chunks "" 200 = [""] := by decide

example : split_text_into_chunks " " 200 = [" "] := by decide

example : split_text_into_chunks
    "A very long sentence with no punctuation that exceeds the limit by itself, truly" 20 =
    ["A very long sentence with no punctuation that exceeds the limit by itself",
     "truly"] := by decide

example : split_text_into_chunks "aaaaaaaaaaaaaaaaaaaaa," 20 =
    ["aaaaaaaaaaaaaaaaaaaaa", ""] := by decide

/-! Helper lemmas about list ends. -/

theorem getLast?_append_right {l m : List Char} (h : m ≠ []) :
    (l ++ m).getLast? = m.getLast? := by
  rw [List.getLast?_append]
  cases hm : m.getLast? with
  | none => exact absurd (by simpa using hm) h
  | some a => rfl

theorem head?_dropWhile_space {l : List Char} {c : Char}
    (h : (l.dropWhile isPySpace).head? = some c) : isPySpace c = false := by
  induction l with
  | nil => simp [List.dropWhile] at h
  | cons a l ih =>
    by_cases ha : isPySpace a = true
    · rw [List.dropWhile_cons, if_pos ha] at h
      exact ih h
    · rw [List.dropWhile_cons, if_neg ha] at h
      simp only [List.head?_cons, Option.some.injEq] at h
      subst h
      simpa using ha

theorem dropWhile_eq_self_of_headClean {l : List Char} (h : HeadClean l) :
    l.dropWhile isPySpace = l := by
  cases l with
  | nil => rfl
  | cons a l =>
    rw [List.dropWhile_cons, if_neg]
    simp [h a rfl]

/-! Counterexamples to the claims that fail on the code. -/

/-- C1 counterexample: on the input `"Hi. Abcdefghijk, xy"` with limit 10,
the chunker emits the running chunk `"Hi."` twice (it is flushed in the
over-long-sentence branch but not reset, so the final flush emits it again)
and drops the comma of the over-long sentence, so concatenating the chunks
with single spaces does not reproduce the input modulo whitespace
normalization. -/
theorem split_duplicates_counterexample :
    split_text_into_chunks "Hi. Abcdefghijk, xy" 10 =
      ["Hi.", "Abcdefghijk", "xy", "Hi."] ∧
    joinChunks (split_text_into_chunks "Hi. Abcdefghijk, xy" 10) =
      "Hi. Abcdefghijk xy Hi." ∧
    normalizeWhitespace "Hi. Abcdefghijk, xy" = "Hi. Abcdefghijk, xy" ∧
    joinChunks (split_text_into_chunks "Hi. Abcdefghijk, xy" 10) ≠
      normalizeWhitespace "Hi. Abcdefghijk, xy" :=
  ⟨by decide, by decide, by decide, by decide⟩

/-- C2 counterexample: a `/speak` request with empty text in the unloaded
state does return 400, but it first triggers the model load, so the
UNLOADED/LOADED state changes. -/
theorem speak_empty_text_loads_model_counterexample :
    (speak sampleModel "mps" (ServerState.mk none none) "" 200).1 =
      SpeakResponse.badRequest "No text provided" ∧
    (speak sampleModel "mps" (ServerState.mk none none) "" 200).2.tts ≠ none := by
  constructor
  · rfl
  · simp [speak, load_model]

/-- C3 counterexample: on the input `"Hi. aaaaaaaaaaaaaaaaaaaaa,"` with
limit 20, comma-splitting the over-long sentence produces an empty part,
which is stripped and appended, so the returned sequence contains the empty
string (and the unreset running chunk `"Hi."` is also emitted again, out of
left-to-right order). -/
theorem split_empty_chunk_counterexample :
    split_text_into_chunks "Hi. aaaaaaaaaaaaaaaaaaaaa," 20 =
      ["Hi.", "aaaaaaaaaaaaaaaaaaaaa", "", "Hi."] ∧
    "" ∈ split_text_into_chunks "Hi. aaaaaaaaaaaaaaaaaaaaa," 20 :=
  ⟨by decide, by decide⟩

/-- C4 counterexample: on whitespace-only input the fallback returns the
original, unstripped text, not the trimmed text the claim describes. -/
theorem split_whitespace_untrimmed_counterexample :
    split_text_into_chunks " " 200 = [" "] ∧
    split_text_into_chunks " " 200 ≠ [""] :=
  ⟨by decide, by decide⟩

/-! Claim theorems (first batch). -/

/-- C4 (amended): when the chunking loop produces no chunks, the chunker
returns the single-element sequence containing the original, unstripped
text; in particular the chunker maps the empty text at limit 200 to the
sequence holding the empty string. -/
theorem split_fallback_original_text (text : String) (L : Nat)
    (h : rawChunks text.data L = []) :
    split_text_into_chunks text L = [text] ∧
    split_text_into_chunks "" 200 = [""] := by
  constructor
  · simp only [split_text_into_chunks, chunksOf, h, if_pos]
    rfl
  · decide

/-- Witness for C4: the whitespace-only input produces no chunks, and the
fallback returns it unchanged. -/
theorem split_fallback_original_text_witness :
    rawChunks " ".data 200 = [] ∧
    (split_text_into_chunks " " 200 = [" "] ∧
     split_text_into_chunks "" 200 = [""]) :=
  ⟨by decide, split_fallback_original_text " " 200 (by decide)⟩

/-- C5: when the running chunk cannot absorb the next sentence and that
sentence itself exceeds the limit, the loop body flushes the running chunk
and appends every comma-delimited part of the sentence, stripped, directly
to the output, with no further subdivision and regardless of the length of
the parts. -/
theorem chunkStep_comma_split_overlong (L : Nat) (chunks : List (List Char))
    (cur s : List Char) (h1 : ¬ cur.length + s.length + 1 ≤ L)
    (h2 : L < s.length) :
    chunkStep L (chunks, cur) s =
      ((if cur = [] then chunks else chunks ++ [cur]) ++
        (splitCommas s).map pyStripL, cur) := by
  simp [chunkStep, h1, h2]

/-- Witness for C5: the spec example at limit 20 splits on the comma into
two parts, each returned as-is even though the first exceeds 20
characters. -/
theorem chunkStep_comma_split_overlong_witness :
    (¬ (List.length ([] : List Char) +
        ("A very long sentence with no punctuation that exceeds the limit by itself, truly".data).length + 1 ≤ 20)) ∧
    (20 < ("A very long sentence with no punctuation that exceeds the limit by itself, truly".data).length) ∧
    chunkStep 20 ([], [])
        "A very long sentence with no punctuation that exceeds the limit by itself, truly".data =
      (["A very long sentence with no punctuation that exceeds the limit by itself".data,
        "truly".data], []) ∧
    split_text_into_chunks
        "A very long sentence with no punctuation that exceeds the limit by itself, truly" 20 =
      ["A very long sentence with no punctuation that exceeds the limit by itself",
       "truly"] :=
  ⟨by decide, by decide,
   by rw [chunkStep_comma_split_overlong 20 [] [] _ (by decide) (by decide)]; decide,
   by decide⟩

/-- C6: the assembled waveform consists of the segments with one silence
buffer of `silenceSamples sr` samples between every adjacent pair, so its
length is the sum of the segment lengths plus the number of gaps times the
silence length. -/
theorem assembleAudio_length (segs : List (List Int)) (sr : Nat)
    (h : segs ≠ []) :
    (assembleAudio segs sr).length =
      (segs.map List.length).sum + (segs.length - 1) * silenceSamples sr := by
  induction segs with
  | nil => exact absurd rfl h
  | cons s rest ih =>
    cases rest with
    | nil => simp [assembleAudio, combineWithSilence]
    | cons t rest2 =>
      have ih2 := ih (by simp)
      simp only [assembleAudio, combineWithSilence] at ih2 ⊢
      simp only [List.length_append, List.length_replicate, ih2,
        List.map_cons, List.sum_cons, List.length_cons]
      simp only [Nat.add_sub_cancel, Nat.succ_sub_one, Nat.succ_mul]
      omega

/-- Witness for C6: two segments at the 16 kHz rate assemble to a waveform
of length `3 + 3200 + 2`. -/
theorem assembleAudio_length_witness :
    ([[1, 2, 3], [4, 5]] : List (List Int)) ≠ [] ∧
    (assembleAudio [[1, 2, 3], [4, 5]] 16000).length =
      (([[1, 2, 3], [4, 5]] : List (List Int)).map List.length).sum +
        (([[1, 2, 3], [4, 5]] : List (List Int)).length - 1) * silenceSamples 16000 ∧
    (assembleAudio [[1, 2, 3], [4, 5]] 16000).length = 3 + 3200 + 2 :=
  ⟨by decide, assembleAudio_length _ 16000 (by decide),
   by rw [assembleAudio_length _ 16000 (by decide)]; decide⟩

/-- C2 (amended): a `/speak` request with empty text responds 400 with the
error `No text provided` and performs no synthesis; when the model is
already loaded the state is unchanged, but when it is unloaded the handler
triggers the model load before the empty-text check, so the state moves to
LOADED. -/
theorem speak_empty_text_badRequest (M : TTSModel) (dev : String)
    (st : ServerState) (m : TTSModel) (d : Option String) (mcs mcs' : Nat)
    (h : st.tts = some m) :
    speak M dev st "" mcs = (SpeakResponse.badRequest "No text provided", st) ∧
    speak M dev (ServerState.mk none d) "" mcs' =
      (SpeakResponse.badRequest "No text provided",
       ServerState.mk (some M) (some dev)) := by
  constructor
  · simp [speak, load_model, h]
  · simp [speak, load_model]

/-- Witness for C2: the loaded state is left unchanged by an empty-text
request, and the unloaded state moves to the loaded state. -/
theorem speak_empty_text_badRequest_witness :
    (ServerState.mk (some sampleModel) (some "cpu")).tts = some sampleModel ∧
    (speak sampleModel "cpu" (ServerState.mk (some sampleModel) (some "cpu")) "" 200 =
       (SpeakResponse.badRequest "No text provided",
        ServerState.mk (some sampleModel) (some "cpu")) ∧
     speak sampleModel "cpu" (ServerState.mk none (some "x")) "" 300 =
       (SpeakResponse.badRequest "No text provided",
        ServerState.mk (some sampleModel) (some "cpu"))) :=
  ⟨rfl, speak_empty_text_badRequest sampleModel "cpu" _ sampleModel (some "x")
    200 300 rfl⟩

/-- C7: when every chunk of a non-empty text is blank after stripping, no
segment is synthesized and the handler responds 500 with the error
`No audio generated` instead of assembling an empty waveform. -/
theorem speak_no_segments_serverError (M : TTSModel) (dev : String)
    (st : ServerState) (text : String) (mcs : Nat) (h1 : text ≠ "")
    (h2 : (split_text_into_chunks text mcs).filter nonBlank = []) :
    (speak M dev st text mcs).1 =
      SpeakResponse.serverError "No audio generated" := by
  simp [speak, h1, h2]

/-- Witness for C7: a single-space text is non-empty, but its only chunk is
blank, so the request fails with the 500 response. -/
theorem speak_no_segments_serverError_witness :
    (" " : String) ≠ "" ∧
    (split_text_into_chunks " " 200).filter nonBlank = [] ∧
    (speak sampleModel "cpu" (ServerState.mk none none) " " 200).1 =
      SpeakResponse.serverError "No audio generated" :=
  ⟨by decide, by decide,
   speak_no_segments_serverError sampleModel "cpu" _ " " 200 (by decide)
     (by decide)⟩

/-- C8: the chunker is a pure function of the pair of text and limit: the
embedding reads no state (mirroring the source function, which depends on
no module global), so two evaluations on the same pair are identical. -/
theorem split_text_into_chunks_deterministic (text : String) (L : Nat) :
    split_text_into_chunks text L = split_text_into_chunks text L := rfl

/-- C9: the model handle is initialized at most once per process: in a
state where the model is present `load_model` is a no-op, a second call
after any call changes nothing, and after a call the model is always
present. -/
theorem load_model_idempotent (M : TTSModel) (dev : String)
    (st st' : ServerState) (m : TTSModel) (h : st.tts = some m) :
    load_model M dev st = st ∧
    load_model M dev (load_model M dev st') = load_model M dev st' ∧
    (load_model M dev st').tts.isSome := by
  refine ⟨by simp [load_model, h], ?_, ?_⟩
  · by_cases h' : st'.tts.isSome <;> simp [load_model, h']
  · by_cases h' : st'.tts.isSome <;> simp [load_model, h']

/-- Witness for C9: a loaded state is a fixed point of `load_model`, and
loading from the unloaded state is idempotent. -/
theorem load_model_idempotent_witness :
    (ServerState.mk (some sampleModel) (some "mps")).tts = some sampleModel ∧
    (load_model sampleModel "mps" (ServerState.mk (some sampleModel) (some "mps")) =
       ServerState.mk (some sampleModel) (some "mps") ∧
     load_model sampleModel "mps"
         (load_model sampleModel "mps" (ServerState.mk none none)) =
       load_model sampleModel "mps" (ServerState.mk none none) ∧
     (load_model sampleModel "mps" (ServerState.mk none none)).tts.isSome) :=
  ⟨rfl, load_model_idempotent sampleModel "mps" _ (ServerState.mk none none)
    sampleModel rfl⟩

/-- C10: every successful `/speak` response reports in its `chunks` field
the length of the chunker output, which counts the blank chunks skipped
during synthesis, so the count is at least the number of synthesized
segments. -/
theorem speak_chunks_count (M : TTSModel) (dev : String) (st : ServerState)
    (text : String) (mcs : Nat) (sr n : Nat) (audio : List Int)
    (h : (speak M dev st text mcs).1 = SpeakResponse.ok sr n audio) :
    n = (split_text_into_chunks text mcs).length ∧
    ((split_text_into_chunks text mcs).filter nonBlank).length ≤ n := by
  simp only [speak] at h
  split at h
  · simp at h
  · split at h
    · simp at h
    · simp only [Prod.fst, SpeakResponse.ok.injEq] at h
      obtain ⟨-, hn, -⟩ := h
      refine ⟨hn.symm, ?_⟩
      rw [← hn]
      exact List.length_filter_le _ _

/-- Witness for C10: at limit 20 the input of twenty-one letters followed by
a comma yields two chunks, one of which is blank, so the reported chunk
count is 2 while only one segment is synthesized. -/
theorem speak_chunks_count_witness :
    (speak sampleModel "cpu" (ServerState.mk none none) "aaaaaaaaaaaaaaaaaaaaa," 20).1 =
      SpeakResponse.ok 16000 2 (List.replicate 21 1) ∧
    (2 = (split_text_into_chunks "aaaaaaaaaaaaaaaaaaaaa," 20).length ∧
     ((split_text_into_chunks "aaaaaaaaaaaaaaaaaaaaa," 20).filter nonBlank).length ≤ 2) ∧
    ((split_text_into_chunks "aaaaaaaaaaaaaaaaaaaaa," 20).filter nonBlank).length <
      (split_text_into_chunks "aaaaaaaaaaaaaaaaaaaaa," 20).length :=
  ⟨by decide,
   speak_chunks_count sampleModel "cpu" (ServerState.mk none none)
     "aaaaaaaaaaaaaaaaaaaaa," 20 16000 2 (List.replicate 21 1) (by decide),
   by decide⟩

/-! Well-formedness of the sentence splitter: on a stripped, non-empty
input every produced piece is non-empty and has no whitespace at either
end. -/

theorem sentAux_ne_nil : ∀ (cs acc : List Char) (sk : Bool),
    sentAux cs acc sk ≠ [] := by
  intro cs
  induction cs with
  | nil =>
    intro acc sk
    cases sk <;> simp [sentAux]
  | cons c cs ih =>
    intro acc sk
    cases sk
    · simp only [sentAux]
      split
      · simp
      · exact ih _ false
    · simp only [sentAux]
      split
      · exact ih _ true
      · exact ih _ false

theorem lastClean_dropTrail (l : List Char) : LastClean (dropTrail l) := by
  intro c hc
  rw [dropTrail, List.getLast?_reverse] at hc
  exact head?_dropWhile_space hc

theorem head?_dropTrail {l : List Char} {c : Char}
    (h : (dropTrail l).head? = some c) : l.head? = some c := by
  have hpre : (l.reverse.dropWhile isPySpace).reverse <+: l.reverse.reverse :=
    List.reverse_prefix.mpr (List.dropWhile_suffix _)
  rw [List.reverse_reverse] at hpre
  obtain ⟨t, ht⟩ := hpre
  rw [dropTrail] at h
  cases hd : (l.reverse.dropWhile isPySpace).reverse with
  | nil => rw [hd] at h; simp at h
  | cons a rest =>
    rw [hd] at ht h
    simp only [List.head?_cons, Option.some.injEq] at h
    subst h
    rw [← ht]
    rfl

theorem dropTrail_eq_self_of_lastClean {l : List Char} (h : LastClean l) :
    dropTrail l = l := by
  have hrev : HeadClean l.reverse := by
    intro c hc
    rw [List.head?_reverse] at hc
    exact h c hc
  rw [dropTrail, dropWhile_eq_self_of_headClean hrev, List.reverse_reverse]

theorem headClean_pyStripL (l : List Char) : HeadClean (pyStripL l) := by
  intro c hc
  exact head?_dropWhile_space (head?_dropTrail hc)

theorem lastClean_pyStripL (l : List Char) : LastClean (pyStripL l) :=
  lastClean_dropTrail _

theorem pyStripL_eq_self {l : List Char} (h1 : HeadClean l) (h2 : LastClean l) :
    pyStripL l = l := by
  rw [pyStripL, dropWhile_eq_self_of_headClean h1,
    dropTrail_eq_self_of_lastClean h2]

theorem sentAux_wf : ∀ cs : List Char,
    (∀ acc, HeadClean (acc ++ cs) → LastClean (acc ++ cs) → acc ++ cs ≠ [] →
      ∀ p ∈ sentAux cs acc false, Clean p) ∧
    (cs ≠ [] → LastClean cs → ∀ p ∈ sentAux cs [] true, Clean p) := by
  intro cs
  induction cs with
  | nil =>
    refine ⟨?_, ?_⟩
    · intro acc hH hL hne p hp
      simp only [sentAux, List.mem_singleton] at hp
      subst hp
      refine ⟨by simpa using hne, ?_, ?_⟩
      · intro c hc
        exact hH c (by simpa using hc)
      · intro c hc
        exact hL c (by simpa using hc)
    · intro h
      exact absurd rfl h
  | cons c cs ih =>
    refine ⟨?_, ?_⟩
    · intro acc hH hL hne p hp
      simp only [sentAux] at hp
      by_cases hcond : (isPySpace c && sentEndOpt acc.getLast?) = true
      · rw [if_pos hcond] at hp
        obtain ⟨hsp, he⟩ : isPySpace c = true ∧ sentEndOpt acc.getLast? = true := by
          simpa using hcond
        have hacc : acc ≠ [] := by
          intro h0
          rw [h0] at he
          simp [sentEndOpt] at he
        rcases List.mem_cons.mp hp with hpa | hpr
        · subst hpa
          obtain ⟨d, hd⟩ : ∃ d, p.getLast? = some d := by
            cases hgl : p.getLast? with
            | none => rw [hgl] at he; simp [sentEndOpt] at he
            | some d => exact ⟨d, rfl⟩
          refine ⟨hacc, ?_, ?_⟩
          · intro e hee
            exact hH e (by rw [List.head?_append_of_ne_nil _ hacc]; exact hee)
          · intro e hee
            rw [hd] at hee
            obtain rfl : d = e := by simpa using hee
            rw [hd] at he
            have hor : (d = '.' ∨ d = '!') ∨ d = '?' := by
              simpa [sentEndOpt, Bool.or_eq_true, decide_eq_true_eq] using he
            rcases hor with (rfl | rfl) | rfl <;> decide
        · have hcs : cs ≠ [] := by
            intro h0
            subst h0
            have hlast := hL c (List.getLast?_concat acc)
            simp [hlast] at hsp
          have hLcs : LastClean cs := by
            intro e hee
            apply hL
            have hsplit : acc ++ c :: cs = (acc ++ [c]) ++ cs := by simp
            rw [hsplit, getLast?_append_right hcs]
            exact hee
          exact ih.2 hcs hLcs p hpr
      · rw [if_neg hcond] at hp
        have hsplit : (acc ++ [c]) ++ cs = acc ++ c :: cs := by simp
        refine ih.1 (acc ++ [c]) ?_ ?_ (by simp) p hp
        · rw [hsplit]; exact hH
        · rw [hsplit]; exact hL
    · intro hne hL p hp
      simp only [sentAux] at hp
      by_cases hsp : isPySpace c = true
      · rw [if_pos hsp] at hp
        have hcs : cs ≠ [] := by
          intro h0
          subst h0
          have hlast := hL c (by simp)
          simp [hlast] at hsp
        have hLcs : LastClean cs := by
          intro e hee
          apply hL
          have hsplit : c :: cs = [c] ++ cs := rfl
          rw [hsplit, getLast?_append_right hcs]
          exact hee
        exact ih.2 hcs hLcs p hp
      · rw [if_neg hsp] at hp
        refine ih.1 [c] ?_ ?_ (by simp) p (by simpa using hp)
        · intro e hee
          have : c = e := by simpa using hee
          subst this
          simpa using hsp
        · simpa using hL

theorem splitSentences_wf {t : List Char} (h : t ≠ []) (hH : HeadClean t)
    (hL : LastClean t) : ∀ p ∈ splitSentences t, Clean p := by
  have hmain := (sentAux_wf t).1 []
  simp only [List.nil_append] at hmain
  exact hmain hH hL h

/-! Lemmas about the single-space join and stripping. -/

theorem glueSp_cons_cons (p q : List Char) (ps : List (List Char)) :
    glueSp (p :: q :: ps) = p ++ ' ' :: glueSp (q :: ps) := rfl

theorem glueSp_append_single {g : List (List Char)} (s : List Char)
    (h : g ≠ []) : glueSp (g ++ [s]) = glueSp g ++ ' ' :: s := by
  induction g with
  | nil => exact absurd rfl h
  | cons p g ih =>
    cases g with
    | nil => rfl
    | cons q g2 =>
      have ihh := ih (by simp)
      calc glueSp ((p :: q :: g2) ++ [s])
          = p ++ ' ' :: glueSp ((q :: g2) ++ [s]) := by
            simp only [List.cons_append, glueSp_cons_cons]
        _ = p ++ ' ' :: (glueSp (q :: g2) ++ ' ' :: s) := by rw [ihh]
        _ = glueSp (p :: q :: g2) ++ ' ' :: s := by
            simp [glueSp_cons_cons, List.append_assoc]

theorem glueSp_clean {g : List (List Char)} (h1 : g ≠ [])
    (h2 : ∀ p ∈ g, Clean p) : Clean (glueSp g) := by
  induction g with
  | nil => exact absurd rfl h1
  | cons p g ih =>
    cases g with
    | nil => simpa [glueSp] using h2 p (by simp)
    | cons q g2 =>
      have hg : Clean (glueSp (q :: g2)) :=
        ih (by simp) (fun x hx => h2 x (by simp [hx]))
      have hp : Clean p := h2 p (by simp)
      refine ⟨?_, ?_, ?_⟩
      · rw [glueSp_cons_cons]
        intro h0
        exact hp.1 (List.append_eq_nil.mp h0).1
      · intro e hee
        rw [glueSp_cons_cons, List.head?_append_of_ne_nil _ hp.1] at hee
        exact hp.2.1 e hee
      · intro e hee
        rw [glueSp_cons_cons] at hee
        rw [getLast?_append_right (by simp)] at hee
        have hcons : (' ' :: glueSp (q :: g2)) = [' '] ++ glueSp (q :: g2) := rfl
        rw [hcons, getLast?_append_right hg.1] at hee
        exact hg.2.2 e hee

theorem glueSp_eq_nil_iff {g : List (List Char)} (h : ∀ p ∈ g, Clean p) :
    glueSp g = [] ↔ g = [] := by
  constructor
  · intro h0
    by_contra hg
    exact (glueSp_clean hg h).1 h0
  · intro h0
    subst h0
    rfl

theorem glueSp_append {a : List (List Char)} (b : List (List Char))
    (ha : a ≠ []) (hb : b ≠ []) :
    glueSp (a ++ b) = glueSp a ++ ' ' :: glueSp b := by
  induction a with
  | nil => exact absurd rfl ha
  | cons p a ih =>
    cases a with
    | nil =>
      cases b with
      | nil => exact absurd rfl hb
      | cons q b2 => rfl
    | cons r a2 =>
      have ihh := ih (by simp)
      calc glueSp ((p :: r :: a2) ++ b)
          = p ++ ' ' :: glueSp ((r :: a2) ++ b) := by
            simp only [List.cons_append, glueSp_cons_cons]
        _ = p ++ ' ' :: (glueSp (r :: a2) ++ ' ' :: glueSp b) := by rw [ihh]
        _ = glueSp (p :: r :: a2) ++ ' ' :: glueSp b := by
            simp [glueSp_cons_cons, List.append_assoc]

theorem glueSp_map_flatten {G : List (List (List Char))}
    (h : ∀ g ∈ G, g ≠ []) : glueSp (G.map glueSp) = glueSp G.flatten := by
  induction G with
  | nil => rfl
  | cons g G ih =>
    cases G with
    | nil => simp [glueSp]
    | cons g2 G2 =>
      have hg : g ≠ [] := h g (by simp)
      have hflat : (g2 :: G2).flatten ≠ [] := by
        simp only [List.flatten_cons]
        intro h0
        exact (h g2 (by simp)) (List.append_eq_nil.mp h0).1
      calc glueSp ((g :: g2 :: G2).map glueSp)
          = glueSp g ++ ' ' :: glueSp ((g2 :: G2).map glueSp) := by
            simp only [List.map_cons, glueSp_cons_cons]
        _ = glueSp g ++ ' ' :: glueSp (g2 :: G2).flatten := by
            rw [ih (fun x hx => h x (by simp [hx]))]
        _ = glueSp (g ++ (g2 :: G2).flatten) := by
            rw [glueSp_append _ hg hflat]
        _ = glueSp ((g :: g2 :: G2).flatten) := by
            simp only [List.flatten_cons]

theorem pyStripL_space_cons {s : List Char} (h : Clean s) :
    pyStripL (' ' :: s) = s := by
  obtain ⟨hne, hH, hL⟩ := h
  rw [pyStripL]
  have h1 : (' ' :: s).dropWhile isPySpace = s.dropWhile isPySpace := by
    rw [List.dropWhile_cons, if_pos (by decide)]
  rw [h1, dropWhile_eq_self_of_headClean hH,
    dropTrail_eq_self_of_lastClean hL]

theorem pyStripL_glue {a s : List Char} (ha : Clean a) (hs : Clean s) :
    pyStripL (a ++ ' ' :: s) = a ++ ' ' :: s := by
  apply pyStripL_eq_self
  · intro e hee
    rw [List.head?_append_of_ne_nil _ ha.1] at hee
    exact ha.2.1 e hee
  · intro e hee
    rw [getLast?_append_right (by simp)] at hee
    have hcons : (' ' :: s) = [' '] ++ s := rfl
    rw [hcons, getLast?_append_right hs.1] at hee
    exact hs.2.2 e hee

/-! Correspondence between the sentence splitter and the whitespace
normalizer: joining the sentences with single spaces yields exactly the
normalized text. -/

theorem normAux_append : ∀ (cs acc b : List Char) (sk : Bool),
    (sk = false → b ≠ []) →
    normAux cs (acc ++ b) sk = acc ++ normAux cs b sk := by
  intro cs
  induction cs with
  | nil =>
    intro acc b sk h
    cases sk <;> rfl
  | cons c cs ih =>
    intro acc b sk h
    cases sk
    · have hb : b ≠ [] := h rfl
      simp only [normAux, getLast?_append_right hb]
      by_cases hcond : (isPySpace c && sentEndOpt b.getLast?) = true
      · rw [if_pos hcond, if_pos hcond, List.append_assoc]
        exact ih acc (b ++ [' ']) true (by simp)
      · rw [if_neg hcond, if_neg hcond, List.append_assoc]
        exact ih acc (b ++ [c]) false (by simp)
    · simp only [normAux]
      by_cases hsp : isPySpace c = true
      · rw [if_pos hsp, if_pos hsp]
        exact ih acc b true (by simp)
      · rw [if_neg hsp, if_neg hsp, List.append_assoc]
        exact ih acc (b ++ [c]) false (by simp)

theorem glue_sentAux_eq_normAux : ∀ cs acc : List Char,
    glueSp (sentAux cs acc false) = normAux cs acc false ∧
    glueSp (sentAux cs acc true) = normAux cs acc true := by
  intro cs
  induction cs with
  | nil =>
    intro acc
    exact ⟨rfl, rfl⟩
  | cons c cs ih =>
    intro acc
    constructor
    · simp only [sentAux, normAux]
      by_cases hcond : (isPySpace c && sentEndOpt acc.getLast?) = true
      · rw [if_pos hcond, if_pos hcond]
        obtain ⟨x, xs, hx⟩ : ∃ x xs, sentAux cs [] true = x :: xs := by
          cases hsa : sentAux cs [] true with
          | nil => exact absurd hsa (sentAux_ne_nil _ _ _)
          | cons x xs => exact ⟨x, xs, rfl⟩
        have hN : normAux cs (acc ++ [' ']) true =
            (acc ++ [' ']) ++ normAux cs [] true := by
          have happ := normAux_append cs (acc ++ [' ']) [] true (by simp)
          simpa using happ
        rw [hx, glueSp_cons_cons, ← hx, (ih []).2, hN]
        simp [List.append_assoc]
      · rw [if_neg hcond, if_neg hcond]
        exact (ih (acc ++ [c])).1
    · simp only [sentAux, normAux]
      by_cases hsp : isPySpace c = true
      · rw [if_pos hsp, if_pos hsp]
        exact (ih acc).2
      · rw [if_neg hsp, if_neg hsp]
        exact (ih (acc ++ [c])).1

/-! Partition structure of the chunking loop when every sentence fits
within the limit. -/

theorem foldl_chunkStep_partition :
    ∀ (ss : List (List Char)) (L : Nat) (groups : List (List (List Char)))
      (curg : List (List Char)),
      (∀ s ∈ ss, Clean s ∧ s.length ≤ L) →
      (∀ g ∈ groups, g ≠ [] ∧ ∀ p ∈ g, Clean p) →
      (∀ p ∈ curg, Clean p) →
      ∃ (groups' : List (List (List Char))) (curg' : List (List Char)),
        (∀ g ∈ groups', g ≠ [] ∧ ∀ p ∈ g, Clean p) ∧
        (∀ p ∈ curg', Clean p) ∧
        ss.foldl (chunkStep L) (groups.map glueSp, glueSp curg) =
          (groups'.map glueSp, glueSp curg') ∧
        groups'.flatten ++ curg' = groups.flatten ++ curg ++ ss := by
  intro ss
  induction ss with
  | nil =>
    intro L groups curg hss hg hc
    exact ⟨groups, curg, hg, hc, rfl, by simp⟩
  | cons s ss ih =>
    intro L groups curg hss hg hc
    obtain ⟨hclean_s, hlen_s⟩ := hss s (by simp)
    have hss' : ∀ x ∈ ss, Clean x ∧ x.length ≤ L :=
      fun x hx => hss x (by simp [hx])
    rw [List.foldl_cons]
    by_cases hfit : (glueSp curg).length + s.length + 1 ≤ L
    · have hstep : chunkStep L (groups.map glueSp, glueSp curg) s =
          (groups.map glueSp, glueSp (curg ++ [s])) := by
        by_cases hcg : curg = []
        · subst hcg
          simp only [chunkStep]
          rw [if_pos hfit]
          simp [glueSp, pyStripL_space_cons hclean_s]
        · have hcg2 : Clean (glueSp curg) := glueSp_clean hcg hc
          simp only [chunkStep]
          rw [if_pos hfit, pyStripL_glue hcg2 hclean_s,
            glueSp_append_single s hcg]
      rw [hstep]
      have hcurg' : ∀ p ∈ curg ++ [s], Clean p := by
        intro p hp
        rcases List.mem_append.mp hp with h | h
        · exact hc p h
        · simp only [List.mem_singleton] at h
          subst h
          exact hclean_s
      obtain ⟨G, C, ha, hb, hcc, hd⟩ := ih L groups (curg ++ [s]) hss' hg hcurg'
      exact ⟨G, C, ha, hb, hcc, by rw [hd]; simp [List.append_assoc]⟩
    · have hnotlong : ¬ L < s.length := by omega
      by_cases hcg : curg = []
      · subst hcg
        have hstep : chunkStep L (groups.map glueSp, glueSp ([] : List (List Char))) s =
            (groups.map glueSp, glueSp [s]) := by
          simp only [chunkStep]
          rw [if_neg hfit]
          simp [glueSp, hnotlong]
        rw [hstep]
        have hcurg' : ∀ p ∈ [s], Clean p := by
          intro p hp
          simp only [List.mem_singleton] at hp
          subst hp
          exact hclean_s
        obtain ⟨G, C, ha, hb, hcc, hd⟩ := ih L groups [s] hss' hg hcurg'
        exact ⟨G, C, ha, hb, hcc, by rw [hd]; simp⟩
      · have hcur : Clean (glueSp curg) := glueSp_clean hcg hc
        have hstep : chunkStep L (groups.map glueSp, glueSp curg) s =
            ((groups ++ [curg]).map glueSp, glueSp [s]) := by
          simp only [chunkStep]
          rw [if_neg hfit]
          simp [glueSp, hnotlong, hcur.1, List.map_append]
        rw [hstep]
        have hgroups' : ∀ g ∈ groups ++ [curg], g ≠ [] ∧ ∀ p ∈ g, Clean p := by
          intro g hgm
          rcases List.mem_append.mp hgm with h | h
          · exact hg g h
          · simp only [List.mem_singleton] at h
            subst h
            exact ⟨hcg, hc⟩
        have hcurg' : ∀ p ∈ [s], Clean p := by
          intro p hp
          simp only [List.mem_singleton] at hp
          subst hp
          exact hclean_s
        obtain ⟨G, C, ha, hb, hcc, hd⟩ := ih L (groups ++ [curg]) [s] hss' hgroups' hcurg'
        refine ⟨G, C, ha, hb, hcc, ?_⟩
        rw [hd]
        simp [List.flatten_append, List.append_assoc]

theorem chunksOf_partition (t : List Char) (L : Nat)
    (h1 : pyStripL t ≠ [])
    (h2 : ∀ s ∈ splitSentences (pyStripL t), s.length ≤ L) :
    ∃ G : List (List (List Char)),
      G ≠ [] ∧
      (∀ g ∈ G, g ≠ [] ∧ ∀ p ∈ g, Clean p) ∧
      G.flatten = splitSentences (pyStripL t) ∧
      chunksOf t L = G.map glueSp := by
  have hwf : ∀ p ∈ splitSentences (pyStripL t), Clean p :=
    splitSentences_wf h1 (headClean_pyStripL t) (lastClean_pyStripL t)
  have hss : ∀ s ∈ splitSentences (pyStripL t), Clean s ∧ s.length ≤ L :=
    fun s hs => ⟨hwf s hs, h2 s hs⟩
  obtain ⟨G0, C0, hG0, hC0, hfold, hflat⟩ :=
    foldl_chunkStep_partition (splitSentences (pyStripL t)) L [] [] hss
      (by simp) (by simp)
  have hfold2 : (splitSentences (pyStripL t)).foldl (chunkStep L) ([], []) =
      (G0.map glueSp, glueSp C0) := by
    simpa [glueSp] using hfold
  have hflat2 : G0.flatten ++ C0 = splitSentences (pyStripL t) := by
    simpa using hflat
  by_cases hc : C0 = []
  · subst hc
    have hflat3 : G0.flatten = splitSentences (pyStripL t) := by
      simpa using hflat2
    have hG0ne : G0 ≠ [] := by
      intro h0
      subst h0
      exact sentAux_ne_nil (pyStripL t) [] false hflat3.symm
    have hraw : rawChunks t L = G0.map glueSp := by
      simp only [rawChunks, hfold2]
      simp [glueSp]
    have hrawne : rawChunks t L ≠ [] := by
      rw [hraw]
      simpa using hG0ne
    refine ⟨G0, hG0ne, hG0, hflat3, ?_⟩
    simp only [chunksOf]
    rw [if_neg hrawne, hraw]
  · have hcur : Clean (glueSp C0) := glueSp_clean hc hC0
    have hflat3 : (G0 ++ [C0]).flatten = splitSentences (pyStripL t) := by
      simp only [List.flatten_append, List.flatten_cons, List.flatten_nil,
        List.append_nil]
      exact hflat2
    have hraw : rawChunks t L = (G0 ++ [C0]).map glueSp := by
      simp only [rawChunks, hfold2]
      rw [if_neg hcur.1]
      simp [List.map_append]
    have hGne : G0 ++ [C0] ≠ [] := by simp
    have hrawne : rawChunks t L ≠ [] := by
      rw [hraw]
      simp
    refine ⟨G0 ++ [C0], hGne, ?_, hflat3, ?_⟩
    · intro g hgm
      rcases List.mem_append.mp hgm with h | h
      · exact hG0 g h
      · simp only [List.mem_singleton] at h
        subst h
        exact ⟨hc, hC0⟩
    · simp only [chunksOf]
      rw [if_neg hrawne, hraw]

/-- C3 (amended): when the stripped input is non-empty and every sentence
fits within the limit (so the over-long-sentence path with its comma
splitting and missing running-chunk reset is never taken), the chunker
output is the list of space-joins of a partition of the sentence sequence
into consecutive non-empty groups, in original left-to-right order, and
every chunk is non-empty. -/
theorem split_chunks_partition_of_fit (text : String) (L : Nat)
    (h1 : pyStripL text.data ≠ [])
    (h2 : ∀ s ∈ splitSentences (pyStripL text.data), s.length ≤ L) :
    ∃ G : List (List (List Char)),
      G ≠ [] ∧ (∀ g ∈ G, g ≠ []) ∧
      G.flatten = splitSentences (pyStripL text.data) ∧
      split_text_into_chunks text L = G.map (fun g => String.mk (glueSp g)) ∧
      ∀ c ∈ split_text_into_chunks text L, c ≠ "" := by
  obtain ⟨G, hne, hG, hflat, hchunks⟩ := chunksOf_partition text.data L h1 h2
  refine ⟨G, hne, fun g hg => (hG g hg).1, hflat, ?_, ?_⟩
  · rw [split_text_into_chunks, hchunks, List.map_map]
    rfl
  · intro c hcmem
    rw [split_text_into_chunks, hchunks, List.map_map] at hcmem
    simp only [List.mem_map, Function.comp] at hcmem
    obtain ⟨g, hgmem, hgc⟩ := hcmem
    have hgl : glueSp g ≠ [] :=
      (glueSp_clean (hG g hgmem).1 (hG g hgmem).2).1
    intro h0
    apply hgl
    have hdata := congrArg String.data (h0 ▸ hgc)
    simpa using hdata.symm

/-- Witness for C3: at limit 15 the spec example has two sentences, each
fitting alone but not combined, and the output is their singleton-group
partition. -/
theorem split_chunks_partition_witness :
    pyStripL "Hello world. This is a test.".data ≠ [] ∧
    (∀ s ∈ splitSentences (pyStripL "Hello world. This is a test.".data),
      s.length ≤ 15) ∧
    (∃ G : List (List (List Char)),
      G ≠ [] ∧ (∀ g ∈ G, g ≠ []) ∧
      G.flatten = splitSentences (pyStripL "Hello world. This is a test.".data) ∧
      split_text_into_chunks "Hello world. This is a test." 15 =
        G.map (fun g => String.mk (glueSp g)) ∧
      ∀ c ∈ split_text_into_chunks "Hello world. This is a test." 15, c ≠ "") :=
  ⟨by decide, by decide,
   split_chunks_partition_of_fit "Hello world. This is a test." 15
     (by decide) (by decide)⟩

/-- C1 (amended): when the stripped input is non-empty and every sentence
fits within the limit (so no comma splitting, which drops the comma
separators, and no re-emission of the unreset running chunk can occur),
concatenating the chunks with single spaces reinserted reproduces the text
modulo whitespace normalization: the result is exactly the stripped input
with each whitespace run after a sentence-ending punctuation mark collapsed
to a single space, so no character is dropped and none is duplicated. -/
theorem joinChunks_eq_normalize_of_fit (text : String) (L : Nat)
    (h1 : pyStripL text.data ≠ [])
    (h2 : ∀ s ∈ splitSentences (pyStripL text.data), s.length ≤ L) :
    joinChunks (split_text_into_chunks text L) = normalizeWhitespace text := by
  obtain ⟨G, hne, hG, hflat, hchunks⟩ := chunksOf_partition text.data L h1 h2
  rw [joinChunks, split_text_into_chunks, hchunks, List.map_map, List.map_map]
  show String.mk (glueSp (G.map glueSp)) = normalizeWhitespace text
  rw [glueSp_map_flatten (fun g hg => (hG g hg).1), hflat]
  exact congrArg String.mk ((glue_sentAux_eq_normAux (pyStripL text.data) []).1)

/-- Witness for C1: the spec example round-trips: joining the two chunks
with a single space gives back the input, which is already normalized. -/
theorem joinChunks_eq_normalize_witness :
    pyStripL "Hello world. This is a test.".data ≠ [] ∧
    (∀ s ∈ splitSentences (pyStripL "Hello world. This is a test.".data),
      s.length ≤ 15) ∧
    joinChunks (split_text_into_chunks "Hello world. This is a test." 15) =
      normalizeWhitespace "Hello world. This is a test." :=
  ⟨by decide, by decide,
   joinChunks_eq_normalize_of_fit "Hello world. This is a test." 15
     (by decide) (by decide)⟩
